import Mathlib

/-!
Verification development for the embedded TradingView chart demo.

This file gives a shallow embedding, in Lean, of the data-handling core of
the repository (candle normalisation and merging, interval parsing, the
market-hours check, the empty-range index, the API request cache and
subscription bookkeeping, and the chart loader's response handling), and
proves properties of the embedded definitions.

Modelling conventions, used throughout:
- JavaScript numbers are modelled as `Int` where the source only ever holds
  integers (timestamps in milliseconds, bucket times in seconds), and as `ℚ`
  where fractional arithmetic occurs (prices, overlap percentages).
- A JavaScript value that may be `undefined`/`null`/`NaN` is an `Option`.
- JavaScript `Map`s and `Set`s are insertion-ordered association lists with
  the JS update semantics (updating an existing key keeps its position,
  `Set.add` of a fresh object always appends).
- `Array.prototype.sort` with a numeric comparator is a stable sort ordered
  by the comparator; it is modelled by `List.insertionSort`, which is stable
  and sorts by the given relation.
-/

namespace TVChart

/-- A normalised candle in chart format, as produced by `formatCandleData`
in `src/utils.js`: `time` is the bucket start in seconds, the remaining
fields are prices/volume.  The source field `open` is called `op` here
because `open` is reserved in Lean. -/
structure Candle where
  time : Int
  op : ℚ
  high : ℚ
  low : ℚ
  close : ℚ
  volume : ℚ
deriving DecidableEq, Repr

/-- The comparator `(a, b) => a.time - b.time` used by the source's array
sorts, as an ordering relation. -/
def timeLE (a b : Candle) : Prop := a.time ≤ b.time

instance : DecidableRel timeLE := fun a b => inferInstanceAs (Decidable (a.time ≤ b.time))

instance : IsTotal Candle timeLE := ⟨fun a b => Int.le_total a.time b.time⟩

instance : IsTrans Candle timeLE := ⟨fun _ _ _ h1 h2 => le_trans h1 h2⟩

/-- JS `array.sort((a, b) => a.time - b.time)`: a stable sort by time. -/
def sortByTime (l : List Candle) : List Candle := List.insertionSort timeLE l

/-- The times of a candle list, in order. -/
def times (l : List Candle) : List Int := l.map (fun c => c.time)

/-- A valid candle series: strictly ascending by `time` (hence unique times). -/
def StrictAsc (l : List Candle) : Prop := l.Pairwise (fun a b => a.time < b.time)

instance : DecidablePred StrictAsc := fun l =>
  inferInstanceAs (Decidable (l.Pairwise (fun a b : Candle => a.time < b.time)))

/-- One JS `candleMap.set(candle.time, candle)` step (`src/utils.js`,
`mergeCandles`).  A JS `Map` keeps insertion order and updates an existing
key in place; the keys here are candle times. -/
def mapSet (m : List Candle) (c : Candle) : List Candle :=
  if m.any (fun p => p.time == c.time) then
    m.map (fun p => if p.time == c.time then c else p)
  else m ++ [c]

/-- Folding a whole candle list into the map, in order. -/
def mapSetAll (m : List Candle) (l : List Candle) : List Candle := l.foldl mapSet m

/-- `mergeCandles(existingData, newData)` from `src/utils.js` lines 189-238.
The two leading `Array.isArray` coercions are vacuous in the typed model,
and the `candle && typeof candle.time === "number"` guards inside the map
loops always hold here because every model candle has a numeric time.
Everything else is translated clause by clause: the two empty-input early
returns, the non-overlap fast paths (which read first/last elements of the
unsorted inputs), and the map-based dedup path over the pre-sorted inputs
followed by a final sort of the map values. -/
def mergeCandles : List Candle → List Candle → List Candle
  | [], newData => newData
  | e0 :: es, [] => e0 :: es
  | e0 :: es, n0 :: ns =>
    let existingMin := e0.time
    let existingMax := (es.getLastD e0).time
    let newMin := n0.time
    let newMax := (ns.getLastD n0).time
    if newMax < existingMin then (n0 :: ns) ++ (e0 :: es)
    else if newMin > existingMax then (e0 :: es) ++ (n0 :: ns)
    else
      sortByTime (mapSetAll (mapSetAll [] (sortByTime (e0 :: es))) (sortByTime (n0 :: ns)))

/-- A raw record from the REST/WS wire, input of `formatCandleData`.
`timestamp` is `none` when the property is absent (`typeof ... ===
"undefined"`); a price field is `none` when `Number(...)` of it is `NaN`;
`volume` is `none` when `candle.volume || 0` falls back to `0` (absent,
`NaN` or `0`, which all give volume `0`). -/
structure RawCandle where
  timestamp : Option Int
  op : Option ℚ
  high : Option ℚ
  low : Option ℚ
  close : Option ℚ
  volume : Option ℚ
deriving DecidableEq, Repr

/-- The body of the `map` callback in `formatCandleData`: `none` models the
`null` that the subsequent `filter` drops.  The outer `Option` models a
`null`/`undefined` element of the input array (the `!candle` check). -/
def formatOne (r : Option RawCandle) : Option Candle :=
  match r with
  | none => none
  | some c =>
    match c.timestamp with
    | none => none
    | some ts =>
      match c.op, c.high, c.low, c.close with
      | some o, some h, some l, some cl =>
        some { time := Int.fdiv ts 1000, op := o, high := h, low := l, close := cl,
               volume := c.volume.getD 0 }
      | _, _, _, _ => none

/-- `formatCandleData(candles)` from `src/utils.js` lines 148-184:
map to chart format (dropping bad records), then sort ascending by time.
`Math.floor(candle.timestamp / 1000)` is floor division on the integer
wire timestamp. -/
def formatCandleData (candles : List (Option RawCandle)) : List Candle :=
  if candles.isEmpty then []
  else sortByTime (candles.filterMap formatOne)

/-! Interval parsing (`parseInterval`, `src/utils.js` lines 4-30). -/

/-- Decimal value of a digit run, most significant first. -/
def digitsVal (ds : List Char) : Nat :=
  ds.foldl (fun acc ch => acc * 10 + (ch.toNat - 48)) 0

/-- JS `parseInt(s, 10)`: skip leading whitespace, optional sign, then the
longest leading digit run; `none` models `NaN` (no digits found). -/
def jsParseInt (s : List Char) : Option Int :=
  let t := s.dropWhile (fun ch => ch == ' ' || ch == '\t' || ch == '\n' || ch == '\r')
  match t with
  | '-' :: rest =>
    let ds := rest.takeWhile (fun ch => ch.isDigit)
    if ds.isEmpty then none else some (-(digitsVal ds : Int))
  | '+' :: rest =>
    let ds := rest.takeWhile (fun ch => ch.isDigit)
    if ds.isEmpty then none else some ((digitsVal ds : Int))
  | rest =>
    let ds := rest.takeWhile (fun ch => ch.isDigit)
    if ds.isEmpty then none else some ((digitsVal ds : Int))

/-- `parseInterval(interval)` from `src/utils.js`: `none` models a
non-string argument (`null`, `undefined`, a number, ...), which together
with the empty string is falsy and yields the 1-day default of
`24 * 60 * 60 * 1000 = 86400000` milliseconds.  `slice(-1)` is the last
character, `slice(0, -1)` drops it. -/
def parseInterval (interval : Option String) : Int :=
  match interval with
  | none => 86400000
  | some s =>
    if s = "" then 86400000
    else
      let unit := s.data.getLastD ' '
      match jsParseInt s.data.dropLast with
      | none => 86400000
      | some v =>
        if v ≤ 0 then 86400000
        else if unit = 'm' then v * 60000
        else if unit = 'h' then v * 3600000
        else if unit = 'd' then v * 86400000
        else if unit = 'w' then v * 604800000
        else if unit = 'o' then v * 2592000000
        else 86400000

/-! Market hours (`isMarketOpen`, `src/utils.js` lines 287-323). -/

/-- A `{day, hour, minute}` entry of an instrument's market schedule. -/
structure SessionTime where
  day : Int
  hour : Int
  minute : Int
deriving DecidableEq, Repr

/-- One `{open, close}` pair of the schedule.  The source guards
`m.open && ...`; in the model the `open` member is always present.  The
fields are `openT`/`closeT` because `open` is reserved in Lean. -/
structure MarketSession where
  openT : SessionTime
  closeT : SessionTime
deriving DecidableEq, Repr

/-- Instrument metadata as used by `isMarketOpen`: `market := none` models
a missing or non-array `market` member. -/
structure Instrument where
  category : String
  market : Option (List MarketSession)
deriving DecidableEq, Repr

def msPerDay : Int := 86400000

/-- `new Date(ts).getUTCDay()`: 0-6, Sunday-Saturday; the epoch day
1970-01-01 was a Thursday (4). -/
def utcDay (ts : Int) : Int := (Int.fdiv ts msPerDay + 4).emod 7

/-- `new Date(ts).getUTCHours()`. -/
def utcHour (ts : Int) : Int := Int.fdiv (Int.emod ts msPerDay) 3600000

/-- `new Date(ts).getUTCMinutes()`. -/
def utcMinute (ts : Int) : Int := Int.fdiv (Int.emod ts 3600000) 60000

/-- `isMarketOpen(instrument, timestamp)` from `src/utils.js`:
missing instrument or `category === "Crypto"` is always open; otherwise
look up the schedule entry for the timestamp's UTC day and compare the
minute of day against the `[open, close]` bounds exactly as the source
does (`>= openMinutes && <= closeMinutes`). -/
def isMarketOpen (instrument : Option Instrument) (timestamp : Int) : Bool :=
  match instrument with
  | none => true
  | some inst =>
    if inst.category = "Crypto" then true
    else
      match inst.market with
      | none => false
      | some sessions =>
        let day := utcDay timestamp
        match sessions.find? (fun m => m.openT.day == day) with
        | none => false
        | some marketHours =>
          let currentMinutes := utcHour timestamp * 60 + utcMinute timestamp
          let openMinutes := marketHours.openT.hour * 60 + marketHours.openT.minute
          let closeMinutes := marketHours.closeT.hour * 60 + marketHours.closeT.minute
          decide (currentMinutes ≥ openMinutes ∧ currentMinutes ≤ closeMinutes)

/-! Known-empty range index (`isRangeKnownEmpty` / `rememberEmptyRange`,
`src/unnamed/part_001` lines 759-796).  Range endpoints are JS numbers in
milliseconds, modelled as `ℚ`. -/

/-- A `{start, end}` range object (`end` is reserved in Lean). -/
structure QRange where
  start : ℚ
  endT : ℚ
deriving DecidableEq, Repr

/-- `isRangeKnownEmpty(start, end)`: true when some stored empty range
overlaps the query by a fraction of the query duration exceeding `0.8`.
The stored `this.emptyRanges` JS `Set` iterates in insertion order; the
loop's early `return true` is `List.any`. -/
def isRangeKnownEmpty (emptyRanges : List QRange) (start endT : ℚ) : Bool :=
  emptyRanges.any (fun emptyRange =>
    let overlapStart := max start emptyRange.start
    let overlapEnd := min endT emptyRange.endT
    if overlapStart ≤ overlapEnd then
      let overlap := overlapEnd - overlapStart
      let rangeSize := endT - start
      decide (overlap / rangeSize > 0.8)
    else false)

/-- `rememberEmptyRange(start, end)`: ignore spans under one hour
(`60 * 60 * 1000` ms); a JS `Set` of fresh `{start, end}` objects always
appends; past 20 entries the oldest is deleted. -/
def rememberEmptyRange (emptyRanges : List QRange) (start endT : ℚ) : List QRange :=
  if endT - start < 3600000 then emptyRanges
  else
    let added := emptyRanges ++ [QRange.mk start endT]
    if added.length > 20 then added.drop 1 else added

/-! Association-list model of a JS `Map` (insertion-ordered; `set` of an
existing key updates in place, otherwise appends; `delete` removes). -/

def amFind {β : Type} (m : List (String × β)) (k : String) : Option β :=
  (m.find? (fun kv => kv.1 == k)).map (fun kv => kv.2)

def amSet {β : Type} (m : List (String × β)) (k : String) (v : β) : List (String × β) :=
  if m.any (fun kv => kv.1 == k) then m.map (fun kv => if kv.1 == k then (k, v) else kv)
  else m ++ [(k, v)]

def amDelete {β : Type} (m : List (String × β)) (k : String) : List (String × β) :=
  m.filter (fun kv => kv.1 != k)

/-! The API service request path (`src/api.js`, first variant): request
keys, the in-flight index, `_findOverlappingRequest` and the synchronous
part of `fetchWithCache` / `fetchCandles`. -/

/-- The left and right curly brace characters (code points 123 and 125). -/
def lbrace : Char := Char.ofNat 123

def rbrace : Char := Char.ofNat 125

/-- The `params` object built by `fetchCandles`, with its JS property
insertion order `symbol, width, limit?, start?, end?, referer`.  A `none`
field is absent (spread of `{}`), and `JSON.stringify` omits an
`undefined` `referer`. -/
structure CandleParams where
  symbol : String
  width : String
  limit : Option Int
  start : Option Int
  endT : Option Int
  referer : Option String
deriving DecidableEq, Repr

def quoteStr (s : String) : String := "\"" ++ s ++ "\""

def jsonField (name : String) (v : String) : String := quoteStr name ++ ":" ++ v

def optNumField (name : String) (v : Option Int) : String :=
  match v with
  | none => ""
  | some n => "," ++ jsonField name (toString n)

def optStrField (name : String) (v : Option String) : String :=
  match v with
  | none => ""
  | some s => "," ++ jsonField name (quoteStr s)

/-- `JSON.stringify(params)` for the candle params object (no escaping is
needed for the symbol/width tokens this client uses). -/
def jsonOfParams (p : CandleParams) : String :=
  String.singleton lbrace ++
    jsonField ("symbol") (quoteStr p.symbol) ++ "," ++
    jsonField ("width") (quoteStr p.width) ++
    optNumField ("limit") p.limit ++
    optNumField ("start") p.start ++
    optNumField ("end") p.endT ++
    optStrField ("referer") p.referer ++
  String.singleton rbrace

/-- The in-flight key: `` `${endpoint}:${JSON.stringify(params)}` ``. -/
def requestKey (endpoint : String) (p : CandleParams) : String :=
  endpoint ++ ":" ++ jsonOfParams p

/-- JS `String.prototype.split` with a single-character separator. -/
def splitChars (sep : Char) : List Char → List (List Char)
  | [] => [[]]
  | c :: cs =>
    let r := splitChars sep cs
    if c = sep then [] :: r
    else
      match r with
      | h :: t => (c :: h) :: t
      | [] => [[c]]

def jsSplit (s : String) (sep : Char) : List String :=
  (splitChars sep s.data).map (fun l => String.mk l)

/-- JS `String.prototype.startsWith` (first argument is the candidate
prefix). -/
def listStartsWith : List Char → List Char → Bool
  | [], _ => true
  | _ :: _, [] => false
  | p :: ps, c :: cs => p == c && listStartsWith ps cs

/-- A parsed flat JSON value: the keys produced by `requestKey` only ever
hold string and integer members. -/
inductive JValue where
  | str (s : String)
  | num (n : Int)
deriving DecidableEq, Repr

/-- Parse a JSON string literal (no escapes, as produced by
`jsonOfParams`), returning it with the rest of the input. -/
def parseJsonString (cs : List Char) : Option (String × List Char) :=
  match cs with
  | '\"' :: rest =>
    let content := rest.takeWhile (fun c => c != '\"')
    match rest.dropWhile (fun c => c != '\"') with
    | '\"' :: rest2 => some (String.mk content, rest2)
    | _ => none
  | _ => none

/-- Parse a JSON integer literal. -/
def parseJsonNumber (cs : List Char) : Option (Int × List Char) :=
  match cs with
  | '-' :: rest =>
    let ds := rest.takeWhile (fun c => c.isDigit)
    if ds.isEmpty then none
    else some (-(digitsVal ds : Int), rest.dropWhile (fun c => c.isDigit))
  | _ =>
    let ds := cs.takeWhile (fun c => c.isDigit)
    if ds.isEmpty then none
    else some ((digitsVal ds : Int), cs.dropWhile (fun c => c.isDigit))

def parseJsonValue (cs : List Char) : Option (JValue × List Char) :=
  match cs with
  | '\"' :: _ => (parseJsonString cs).map (fun r => (JValue.str r.1, r.2))
  | _ => (parseJsonNumber cs).map (fun r => (JValue.num r.1, r.2))

/-- Parse the members of a flat JSON object after the opening brace; the
fuel argument bounds recursion and is instantiated with the input length,
which a member list can never exceed. -/
def parseMembers : Nat → List Char → Option (List (String × JValue) × List Char)
  | 0, _ => none
  | fuel + 1, cs =>
    match parseJsonString cs with
    | none => none
    | some (key, rest) =>
      match rest with
      | ':' :: rest2 =>
        match parseJsonValue rest2 with
        | none => none
        | some (v, rest3) =>
          match rest3 with
          | [] => none
          | c :: rest4 =>
            if c = ',' then
              match parseMembers fuel rest4 with
              | none => none
              | some (fields, rest5) => some ((key, v) :: fields, rest5)
            else if c = rbrace then some ([(key, v)], rest4)
            else none
      | _ => none

/-- `JSON.parse` restricted to the flat object shape `jsonOfParams`
produces (`parse` of anything else, in particular of a string truncated
before the object is closed, fails, which models the exception JS
throws). -/
def parseJsonFlat (s : String) : Option (List (String × JValue)) :=
  match s.data with
  | [] => none
  | c :: rest =>
    if c = lbrace then
      match rest with
      | [] => none
      | c2 :: rest2 =>
        if c2 = rbrace then (if rest2.isEmpty then some [] else none)
        else
          match parseMembers s.data.length rest with
          | some (fields, []) => some fields
          | _ => none
    else none

/-- Member access on a parsed JSON object (`undefined` when absent). -/
def jsGetField (obj : List (String × JValue)) (name : String) : Option JValue :=
  (obj.find? (fun kv => kv.1 == name)).map (fun kv => kv.2)

/-- JS `x ? Number(x) : d` for an integer-valued optional `x` (both
`undefined` and `0` are falsy). -/
def jsNumOr (v : Option Int) (d : Int) : Int :=
  match v with
  | some n => if n = 0 then d else n
  | none => d

/-- The same for a parsed JSON member (the keys built here only carry
numeric `start`/`end` members). -/
def jsNumFieldOr (v : Option JValue) (d : Int) : Int :=
  match v with
  | some (JValue.num n) => if n = 0 then d else n
  | _ => d

/-- `_findOverlappingRequest(params)` from `src/api.js` lines 186-236.
The in-flight index `this.pendingRequests` is an insertion-ordered map
from request key to promise; promises are identified by numeric ids.
The source recovers each entry's params with
`JSON.parse(key.split(':', 2)[1])` inside a `try`; a parse failure is
caught and the entry skipped.  `Date.now()` is the `now` argument. -/
def findOverlappingRequest (params : CandleParams) (pending : List (String × Nat))
    (now : Int) : Option Nat :=
  let targetStart := jsNumOr params.start 0
  let targetEnd := jsNumOr params.endT now
  pending.findSome? (fun entry =>
    if ¬ listStartsWith ("/candle:".data) entry.1.data then none
    else
      match ((jsSplit entry.1 ':').take 2).get? 1 with
      | none => none
      | some frag =>
        match parseJsonFlat frag with
        | none => none
        | some existingParams =>
          if jsGetField existingParams ("symbol") ≠ some (JValue.str params.symbol) ∨
             jsGetField existingParams ("width") ≠ some (JValue.str params.width) then none
          else
            let existingStart := jsNumFieldOr (jsGetField existingParams ("start")) 0
            let existingEnd := jsNumFieldOr (jsGetField existingParams ("end")) now
            let rangeContained := (existingStart ≤ targetStart ∧ existingEnd ≥ targetEnd) ∨
                                  (targetStart ≤ existingStart ∧ targetEnd ≥ existingEnd)
            let rangesOverlap := existingStart ≤ targetEnd ∧ existingEnd ≥ targetStart
            let significantOverlap := rangeContained ∨ (rangesOverlap ∧
              ((min targetEnd existingEnd - max targetStart existingStart : Int) : ℚ) /
                ((targetEnd - targetStart : Int) : ℚ) > 0.7)
            if significantOverlap then some entry.2 else none)

/-- What `fetchWithCache` does synchronously before returning: serve
cached data, return an in-flight promise, or start a network request. -/
inductive FetchOutcome where
  | cachedData (data : List RawCandle)
  | inflight (rid : Nat)
  | network (key : String)
deriving DecidableEq, Repr

/-- The `ApiService` maps relevant to the request path: the response
cache, the in-flight index and the per-`symbol:width` covered ranges. -/
structure ApiState where
  cache : List (String × List RawCandle)
  pendingRequests : List (String × Nat)
  cachedRanges : List (String × List (Int × Int))
deriving DecidableEq, Repr

/-- `_isRangeInCache(symbol, width, start, end)` from `src/api.js`. -/
def isRangeInCache (st : ApiState) (symbol width : String) (start endT : Int) : Bool :=
  match amFind st.cachedRanges (symbol ++ ":" ++ width) with
  | none => false
  | some ranges => ranges.any (fun r => r.1 ≤ start ∧ r.2 ≥ endT)

/-- The synchronous decision path of `fetchWithCache(endpoint, params,
cacheKey)` (`src/api.js` lines 86-181) for `endpoint = "/candle"`:
(1) if the candle params are range-complete and the range is covered,
return the largest cached candle payload whose key starts with
`candles:symbol:width:`;
(2) else, for symbol+width-complete params, return any in-flight request
`_findOverlappingRequest` finds;
(3) else store a fresh promise (id `freshRid`) under the request key and
go to the network.  (The non-candle exact-key branch of the source is
unreachable under `endpoint = "/candle"` with a symbol and width and is
represented by the same exact-key lookup the source performs.)
The asynchronous continuation (response caching, range recording, settle
cleanup) happens after the function returns and is outside this model. -/
def fetchWithCacheCandle (st : ApiState) (params : CandleParams) (now : Int) (freshRid : Nat) :
    FetchOutcome × ApiState :=
  let rangeStart := jsNumOr params.start 0
  let rangeEnd := jsNumOr params.endT 0
  let canRange := params.symbol ≠ "" ∧ params.width ≠ "" ∧ rangeStart ≠ 0 ∧ rangeEnd ≠ 0
  let fromCache : Option (List RawCandle) :=
    if canRange ∧ isRangeInCache st params.symbol params.width rangeStart rangeEnd then
      let keyStart := "candles:" ++ params.symbol ++ ":" ++ params.width ++ ":"
      let matching := st.cache.filter (fun kv => listStartsWith keyStart.data kv.1.data)
      let sorted := List.insertionSort
        (fun a b : String × List RawCandle => b.2.length ≤ a.2.length) matching
      (sorted.head?).map (fun kv => kv.2)
    else none
  match fromCache with
  | some data => (FetchOutcome.cachedData data, st)
  | none =>
    let reqKey := requestKey ("/candle") params
    if params.symbol ≠ "" ∧ params.width ≠ "" then
      match findOverlappingRequest params st.pendingRequests now with
      | some rid => (FetchOutcome.inflight rid, st)
      | none =>
        (FetchOutcome.network reqKey,
          { st with pendingRequests := amSet st.pendingRequests reqKey freshRid })
    else
      match amFind st.pendingRequests reqKey with
      | some rid => (FetchOutcome.inflight rid, st)
      | none =>
        (FetchOutcome.network reqKey,
          { st with pendingRequests := amSet st.pendingRequests reqKey freshRid })

/-- JS truthiness of an optional integer. -/
def jsTruthyInt (v : Option Int) : Bool :=
  match v with
  | some n => n ≠ 0
  | none => false

/-- `fetchCandles(symbol, width, {limit, start, end})` from `src/api.js`
lines 241-278: timestamps are already integers, so `Math.floor` is the
identity; a truthy start strictly in the future short-circuits to `null`
(`none`) without touching any state; otherwise the params object is built
(including the configured referer) and handed to `fetchWithCache`. -/
def fetchCandles (st : ApiState) (symbol width : String)
    (limit start endo : Option Int) (configReferer : Option String)
    (now : Int) (freshRid : Nat) : Option FetchOutcome × ApiState :=
  let formattedStart : Option Int := if jsTruthyInt start then start else none
  let formattedEnd : Option Int := if jsTruthyInt endo then endo else none
  let skip : Bool :=
    match formattedStart with
    | some fs => decide (fs > now)
    | none => false
  if skip then (none, st)
  else
    let params : CandleParams :=
      { symbol := symbol, width := width,
        limit := if jsTruthyInt limit then limit else none,
        start := formattedStart, endT := formattedEnd, referer := configReferer }
    let r := fetchWithCacheCandle st params now freshRid
    (some r.1, r.2)

/-! Realtime subscription bookkeeping (`subscribeToCandles` /
`unsubscribeFromCandles`, `src/api.js` lines 460-510). -/

/-- The subscription map (key to set of callback ids, callbacks being
identified by numbers) and whether the websocket is (or, for a subscribe
call, successfully becomes) open. -/
structure SubsState where
  subs : List (String × List Nat)
  wsOpen : Bool
deriving DecidableEq, Repr

/-- JS `Set.prototype.add` (insertion-ordered, no duplicates). -/
def setAdd (s : List Nat) (x : Nat) : List Nat := if x ∈ s then s else s ++ [x]

/-- JS `Set.prototype.delete`. -/
def setDelete (s : List Nat) (x : Nat) : List Nat := s.filter (fun y => y ≠ x)

/-- `subscribeToCandles(symbol, width, callback)`: create the callback
set if needed, add the callback, and send the wire subscribe message
`key` whenever the socket is open - on every call, without inspecting the
previous callback count.  Returns the new state and the wire messages
sent. -/
def subscribeToCandles (st : SubsState) (symbol width : String) (cb : Nat) :
    SubsState × List String :=
  let key := symbol ++ "@" ++ width
  let st1 :=
    match amFind st.subs key with
    | none => { st with subs := amSet st.subs key [] }
    | some _ => st
  let cur := (amFind st1.subs key).getD []
  let st2 := { st1 with subs := amSet st1.subs key (setAdd cur cb) }
  if st.wsOpen then (st2, [key]) else (st2, [])

/-- `unsubscribeFromCandles(symbol, width, callback)`: with a callback
argument, remove it and stop if callbacks remain; otherwise (or when the
set drained) delete the key and send the wire unsubscribe message
`-key` if the socket is open. -/
def unsubscribeFromCandles (st : SubsState) (symbol width : String) (cb : Option Nat) :
    SubsState × List String :=
  let key := symbol ++ "@" ++ width
  match amFind st.subs key with
  | none => (st, [])
  | some callbacks =>
    match cb with
    | some c =>
      let remaining := setDelete callbacks c
      let st1 := { st with subs := amSet st.subs key remaining }
      if remaining.length > 0 then (st1, [])
      else
        let st2 := { st1 with subs := amDelete st1.subs key }
        if st.wsOpen then (st2, ["-" ++ key]) else (st2, [])
    | none =>
      let st2 := { st with subs := amDelete st.subs key }
      if st.wsOpen then (st2, ["-" ++ key]) else (st2, [])

/-! The chart loader (`src/chart.js`): the state touched when switching
symbols and when a historical response is applied. -/

/-- `this.lastLoadedRange` (`end` is reserved in Lean). -/
structure TimeRangeI where
  start : Int
  endT : Int
deriving DecidableEq, Repr

/-- One `this.dataCache` entry (the cached instrument metadata is not
modelled; it plays no role in the properties below). -/
structure ChartSnapshot where
  data : List Candle
  range : Option TimeRangeI
deriving DecidableEq, Repr

/-- The chart fields involved in loading: active symbol/interval (empty
string models the initial `null`), the series, the loaded range and the
per-`symbol:interval` snapshot cache. -/
structure ChartState where
  symbol : String
  interval : String
  data : List Candle
  lastLoadedRange : Option TimeRangeI
  dataCache : List (String × ChartSnapshot)
deriving DecidableEq, Repr

/-- The synchronous symbol-switch part of `loadSymbol(symbol, interval)`
(`src/chart.js` lines 541-604): snapshot the current series if nonempty,
set the new symbol and interval, then either restore a cached snapshot or
reset the series and range for a fresh load.  The unsubscribe/resubscribe
calls live in the `SubsState` model and the fetches in the `ApiState`
model. -/
def loadSymbolSwitch (st : ChartState) (newSymbol newInterval : String) : ChartState :=
  let currentKey := st.symbol ++ ":" ++ st.interval
  let st1 :=
    if st.symbol ≠ "" ∧ st.interval ≠ "" ∧ st.data.length > 0 then
      { st with dataCache := amSet st.dataCache currentKey (ChartSnapshot.mk st.data st.lastLoadedRange) }
    else st
  match amFind st1.dataCache (newSymbol ++ ":" ++ newInterval) with
  | some snap =>
    { st1 with symbol := newSymbol, interval := newInterval,
               data := snap.data, lastLoadedRange := snap.range }
  | none =>
    { st1 with symbol := newSymbol, interval := newInterval,
               data := [], lastLoadedRange := none }

/-- What the fetch continuation inside `loadDataForRange` does to the
chart state when the response `candles` arrives (`src/chart.js` lines
473-516): if nonempty, normalise, merge into `this.data` and extend
`this.lastLoadedRange` with the request's `adjustedStart`/`end`.  The
continuation closes over the request parameters but reads `this.data`
and writes `this.data`/`this.lastLoadedRange` at resolution time; it
performs no comparison of the request's symbol/interval against the
active ones. -/
def applyLoadResponse (st : ChartState) (adjustedStart endT : Int)
    (candles : List (Option RawCandle)) : ChartState :=
  if candles.length > 0 then
    let formatted := formatCandleData candles
    let merged := mergeCandles st.data formatted
    let newRange :=
      match st.lastLoadedRange with
      | some r => some (TimeRangeI.mk (min adjustedStart r.start) (max endT r.endT))
      | none => some (TimeRangeI.mk adjustedStart endT)
    { st with data := merged, lastLoadedRange := newRange }
  else st

/-! Basic facts about sorted candle series and the map model. -/

theorem times_nodup_of_strictAsc {l : List Candle} (h : StrictAsc l) : (times l).Nodup := by
  unfold times List.Nodup
  rw [List.pairwise_map]
  exact h.imp (fun hab => ne_of_lt hab)

theorem sorted_timeLE_of_strictAsc {l : List Candle} (h : StrictAsc l) : l.Sorted timeLE :=
  h.imp (fun hab => le_of_lt hab)

theorem sortByTime_eq_of_strictAsc {l : List Candle} (h : StrictAsc l) : sortByTime l = l :=
  (sorted_timeLE_of_strictAsc h).insertionSort_eq

theorem sortByTime_perm (l : List Candle) : (sortByTime l).Perm l :=
  List.perm_insertionSort timeLE l

theorem sortByTime_sorted (l : List Candle) : (sortByTime l).Sorted timeLE :=
  List.sorted_insertionSort timeLE l

theorem strictAsc_of_sorted_nodup {l : List Candle} (hs : l.Sorted timeLE)
    (hn : (times l).Nodup) : StrictAsc l := by
  unfold times List.Nodup at hn
  rw [List.pairwise_map] at hn
  exact (List.Pairwise.and hs hn).imp (fun hab => lt_of_le_of_ne hab.1 hab.2)

theorem head_time_le_of_strictAsc {a x : Candle} {l : List Candle}
    (h : StrictAsc (a :: l)) (hx : x ∈ a :: l) : a.time ≤ x.time := by
  rcases List.mem_cons.mp hx with rfl | hx
  · exact le_refl _
  · exact le_of_lt ((List.pairwise_cons.mp h).1 x hx)

theorem time_le_getLastD_of_strictAsc (l : List Candle) :
    ∀ (d : Candle), StrictAsc l → ∀ x ∈ l, x.time ≤ (l.getLastD d).time := by
  induction l with
  | nil => intro d _ x hx; cases hx
  | cons a l ih =>
    intro d h x hx
    have hlast : (a :: l).getLastD d = l.getLastD a := List.getLastD_cons d a l
    rw [hlast]
    cases l with
    | nil =>
      rcases List.mem_singleton.mp hx with rfl
      exact le_refl _
    | cons b t =>
      have htail : StrictAsc (b :: t) := (List.pairwise_cons.mp h).2
      rcases List.mem_cons.mp hx with rfl | hx
      · have h1 : x.time ≤ b.time := le_of_lt ((List.pairwise_cons.mp h).1 b (by simp))
        have h2 : b.time ≤ ((b :: t).getLastD x).time := ih x htail b (by simp)
        exact le_trans h1 h2
      · exact ih a htail x hx

theorem eq_of_mem_time_eq {l : List Candle} (h : StrictAsc l) {x y : Candle}
    (hx : x ∈ l) (hy : y ∈ l) (ht : x.time = y.time) : x = y :=
  List.inj_on_of_nodup_map (f := fun c : Candle => c.time)
    (times_nodup_of_strictAsc h) hx hy ht

theorem times_mapSet (m : List Candle) (c : Candle) :
    times (mapSet m c) = if c.time ∈ times m then times m else times m ++ [c.time] := by
  unfold mapSet
  by_cases h : c.time ∈ times m
  · have hany : m.any (fun p => p.time == c.time) = true := by
      rw [List.any_eq_true]
      rcases List.mem_map.mp h with ⟨p, hp, hpt⟩
      exact ⟨p, hp, by simp [hpt]⟩
    rw [if_pos hany, if_pos h]
    unfold times
    rw [List.map_map]
    apply List.map_congr_left
    intro p _
    by_cases hpc : p.time = c.time
    · simp [Function.comp, hpc]
    · simp [Function.comp, hpc]
  · have hany : m.any (fun p => p.time == c.time) = false := by
      rw [List.any_eq_false]
      intro p hp
      simp only [beq_iff_eq]
      intro hpt
      exact h (List.mem_map.mpr ⟨p, hp, hpt⟩)
    rw [hany, if_neg h]
    simp [times]

theorem nodup_times_mapSet {m : List Candle} (c : Candle) (h : (times m).Nodup) :
    (times (mapSet m c)).Nodup := by
  rw [times_mapSet]
  by_cases hc : c.time ∈ times m
  · rwa [if_pos hc]
  · rw [if_neg hc, List.nodup_append]
    refine ⟨h, List.nodup_singleton _, ?_⟩
    intro a ha hb
    rw [List.mem_singleton] at hb
    subst hb
    exact hc ha

theorem nodup_times_mapSetAll {m : List Candle} (l : List Candle) (h : (times m).Nodup) :
    (times (mapSetAll m l)).Nodup := by
  induction l generalizing m with
  | nil => exact h
  | cons a l ih =>
    unfold mapSetAll
    rw [List.foldl_cons]
    exact ih (nodup_times_mapSet a h)

theorem find?_replace (m : List Candle) (c : Candle) (t : Int) :
    (m.map (fun p => if p.time == c.time then c else p)).find? (fun p => p.time == t) =
      if t = c.time then (if m.any (fun p => p.time == c.time) then some c else none)
      else m.find? (fun p => p.time == t) := by
  induction m with
  | nil => by_cases h : t = c.time <;> simp [h]
  | cons a m ih =>
    by_cases hac : a.time = c.time
    · by_cases htc : t = c.time
      · simp [List.find?, hac, htc]
      · have hct : (c.time == t) = false := by
          simp only [beq_eq_false_iff_ne, ne_eq]
          exact fun h => htc h.symm
        have hat : (a.time == t) = false := by
          simp only [beq_eq_false_iff_ne, ne_eq]
          rw [hac]
          exact fun h => htc h.symm
        simp only [List.map_cons, List.find?, hac, beq_self_eq_true, if_true, hct]
        rw [ih, if_neg htc]
        rw [if_neg htc]
    · by_cases hat : a.time = t
      · have htc : ¬ t = c.time := fun h => hac (hat.trans h)
        simp [List.find?, hac, hat, htc]
      · have h1 : ((if (a.time == c.time) = true then c else a).time == t) = false := by
          simp only [beq_eq_false_iff_ne, ne_eq, hac]
          simp [hac, hat]
        have h2 : (a.time == t) = false := by
          simp only [beq_eq_false_iff_ne, ne_eq]
          exact hat
        simp only [List.map_cons, List.find?, h1]
        rw [ih]
        by_cases htc : t = c.time
        · simp [htc, List.any_cons, hac]
        · simp [htc, List.find?, h2]

theorem find?_mapSet (m : List Candle) (c : Candle) (t : Int) :
    (mapSet m c).find? (fun p => p.time == t) =
      if t = c.time then some c else m.find? (fun p => p.time == t) := by
  unfold mapSet
  by_cases hany : m.any (fun p => p.time == c.time) = true
  · rw [if_pos hany, find?_replace, hany]
    by_cases htc : t = c.time <;> simp [htc]
  · rw [if_neg hany, List.find?_append]
    by_cases htc : t = c.time
    · have hnone : m.find? (fun p => p.time == t) = none := by
        rw [List.find?_eq_none]
        intro x hx hxt
        apply hany
        rw [List.any_eq_true]
        refine ⟨x, hx, ?_⟩
        rw [beq_iff_eq] at hxt ⊢
        rw [hxt, htc]
      rw [hnone, if_pos htc]
      simp [List.find?, htc]
    · have hct : (c.time == t) = false := by
        simp only [beq_eq_false_iff_ne, ne_eq]
        exact fun h => htc h.symm
      rw [if_neg htc]
      cases hm : m.find? (fun p => p.time == t) <;>
        simp [List.find?, hct, hm]

theorem find?_mapSetAll (m : List Candle) (l : List Candle) (t : Int) :
    (mapSetAll m l).find? (fun p => p.time == t) =
      match l.reverse.find? (fun p => p.time == t) with
      | some c => some c
      | none => m.find? (fun p => p.time == t) := by
  induction l generalizing m with
  | nil => simp [mapSetAll]
  | cons a l ih =>
    unfold mapSetAll
    rw [List.foldl_cons]
    have step := ih (mapSet m a)
    unfold mapSetAll at step
    rw [step, List.reverse_cons, List.find?_append, find?_mapSet]
    cases hl : l.reverse.find? (fun p => p.time == t) with
    | some c => simp
    | none =>
      by_cases hta : t = a.time
      · simp [List.find?, hta]
      · have hat : (a.time == t) = false := by
          simp only [beq_eq_false_iff_ne, ne_eq]
          exact fun h => hta h.symm
        simp [List.find?, hat, hta]

theorem filter_eq_of_find?_nodup {m : List Candle} {t : Int} {c : Candle}
    (hn : (times m).Nodup) (hf : m.find? (fun p => p.time == t) = some c) :
    m.filter (fun p => p.time == t) = [c] := by
  induction m with
  | nil => simp at hf
  | cons a m ih =>
    by_cases hat : a.time = t
    · have hca : c = a := by
        rw [List.find?, show ((a.time == t) = true) by simp [hat]] at hf
        · exact (Option.some.inj hf).symm
      subst hca
      have hrest : m.filter (fun p => p.time == t) = [] := by
        rw [List.filter_eq_nil_iff]
        intro p hp
        simp only [beq_iff_eq]
        intro hpt
        have : c.time ∈ times m := by
          exact List.mem_map.mpr ⟨p, hp, by rw [hpt, hat]⟩
        exact (List.nodup_cons.mp hn).1 (by simpa [times] using this)
      simp [List.filter, hat, hrest]
    · have hatb : (a.time == t) = false := by
        simp only [beq_eq_false_iff_ne, ne_eq]
        exact hat
      have hf2 : m.find? (fun p => p.time == t) = some c := by
        rwa [List.find?, hatb] at hf
      have hrec := ih (List.nodup_cons.mp (by simpa [times] using hn)).2 hf2
      simp [List.filter, hatb, hrec]

theorem mapSet_append_of_not_mem {m : List Candle} {c : Candle}
    (h : c.time ∉ times m) : mapSet m c = m ++ [c] := by
  unfold mapSet
  have hany : m.any (fun p => p.time == c.time) = false := by
    rw [List.any_eq_false]
    intro p hp
    rw [beq_iff_eq]
    intro hpt
    exact h (List.mem_map.mpr ⟨p, hp, hpt⟩)
  rw [hany]
  simp

theorem mapSetAll_append_of_nodup {m l : List Candle}
    (h : (times (m ++ l)).Nodup) : mapSetAll m l = m ++ l := by
  induction l generalizing m with
  | nil => simp [mapSetAll]
  | cons a l ih =>
    have hsplit : times (m ++ a :: l) = times m ++ a.time :: times l := by
      simp [times]
    rw [hsplit] at h
    have hnotm : a.time ∉ times m := by
      intro hmem
      rcases List.nodup_append.mp h with ⟨_, _, hdisj⟩
      exact hdisj hmem (by simp)
    unfold mapSetAll
    rw [List.foldl_cons, mapSet_append_of_not_mem hnotm]
    have hre : times ((m ++ [a]) ++ l) = times m ++ a.time :: times l := by
      simp [times]
    have := ih (m := m ++ [a]) (by rw [hre]; exact h)
    unfold mapSetAll at this
    rw [this, List.append_assoc]
    simp

theorem mapSet_eq_self {m : List Candle} {c : Candle}
    (hn : (times m).Nodup) (hc : c ∈ m) : mapSet m c = m := by
  unfold mapSet
  have hany : m.any (fun p => p.time == c.time) = true := by
    rw [List.any_eq_true]
    exact ⟨c, hc, by simp⟩
  rw [hany]
  simp only [if_true]
  have huniq : ∀ p ∈ m, p.time = c.time → p = c :=
    fun p hp hpt => List.inj_on_of_nodup_map (f := fun x : Candle => x.time) hn hp hc hpt
  rw [show (m.map (fun p => if (p.time == c.time) = true then c else p)) = m.map id by
    apply List.map_congr_left
    intro p hp
    by_cases hpt : p.time = c.time
    · simp [hpt, huniq p hp hpt]
    · simp [hpt]]
  simp

theorem mapSetAll_eq_self {m : List Candle} {l : List Candle}
    (hn : (times m).Nodup) (hl : ∀ c ∈ l, c ∈ m) : mapSetAll m l = m := by
  induction l with
  | nil => rfl
  | cons a l ih =>
    unfold mapSetAll
    rw [List.foldl_cons, mapSet_eq_self hn (hl a (by simp))]
    exact ih (fun c hc => hl c (by simp [hc]))

theorem getLastD_mem {α : Type} (l : List α) (d : α) (h : l ≠ []) : l.getLastD d ∈ l := by
  induction l generalizing d with
  | nil => exact absurd rfl h
  | cons a l ih =>
    rw [List.getLastD_cons]
    cases l with
    | nil => simp [List.getLastD]
    | cons b t => exact List.mem_cons_of_mem _ (ih a (by simp))

/-! The three core merge theorems: last-write-wins at a shared time,
preservation of the strict-ascending invariant, and absorption of a
sublist (idempotence). -/

theorem time_le_getLastD_cons {x e0 : Candle} {es : List Candle}
    (h : StrictAsc (e0 :: es)) (hx : x ∈ e0 :: es) : x.time ≤ (es.getLastD e0).time := by
  have hle := time_le_getLastD_of_strictAsc (e0 :: es) e0 h x hx
  rwa [List.getLastD_cons] at hle

theorem mergeCandles_strictAsc {e n : List Candle}
    (he : StrictAsc e) (hn : StrictAsc n) : StrictAsc (mergeCandles e n) := by
  match e, n with
  | [], n => exact hn
  | e0 :: es, [] => exact he
  | e0 :: es, n0 :: ns =>
    simp only [mergeCandles]
    by_cases h1 : (ns.getLastD n0).time < e0.time
    · rw [if_pos h1]
      rw [StrictAsc, List.pairwise_append]
      refine ⟨hn, he, ?_⟩
      intro a ha b hb
      have hla : a.time ≤ (ns.getLastD n0).time := time_le_getLastD_cons hn ha
      have hlb : e0.time ≤ b.time := head_time_le_of_strictAsc he hb
      calc a.time ≤ (ns.getLastD n0).time := hla
        _ < e0.time := h1
        _ ≤ b.time := hlb
    · rw [if_neg h1]
      by_cases h2 : n0.time > (es.getLastD e0).time
      · rw [if_pos h2]
        rw [StrictAsc, List.pairwise_append]
        refine ⟨he, hn, ?_⟩
        intro a ha b hb
        have hla : a.time ≤ (es.getLastD e0).time := time_le_getLastD_cons he ha
        have hlb : n0.time ≤ b.time := head_time_le_of_strictAsc hn hb
        calc a.time ≤ (es.getLastD e0).time := hla
          _ < n0.time := h2
          _ ≤ b.time := hlb
      · rw [if_neg h2]
        apply strictAsc_of_sorted_nodup (sortByTime_sorted _)
        have hperm : (times (sortByTime (mapSetAll (mapSetAll [] (sortByTime (e0 :: es)))
            (sortByTime (n0 :: ns))))).Perm (times (mapSetAll (mapSetAll [] (sortByTime (e0 :: es)))
            (sortByTime (n0 :: ns)))) := (sortByTime_perm _).map _
        exact hperm.symm.nodup (nodup_times_mapSetAll _ (nodup_times_mapSetAll _ (by simp [times])))

theorem mergeCandles_sublist_absorb {S T : List Candle}
    (hS : StrictAsc S) (hT : T.Sublist S) : mergeCandles S T = S := by
  match S, T with
  | [], T =>
    have : T = [] := List.sublist_nil.mp hT
    subst this
    rfl
  | e0 :: es, [] => rfl
  | e0 :: es, n0 :: ns =>
    have hTasc : StrictAsc (n0 :: ns) := hS.sublist hT
    have hmemT : ∀ c ∈ n0 :: ns, c ∈ e0 :: es := fun c hc => hT.mem hc
    simp only [mergeCandles]
    have h1 : ¬ (ns.getLastD n0).time < e0.time := by
      push_neg
      have hlmem : ns.getLastD n0 ∈ n0 :: ns := by
        rw [show ns.getLastD n0 = (n0 :: ns).getLastD n0 from (List.getLastD_cons n0 n0 ns).symm]
        exact getLastD_mem _ _ (by simp)
      exact head_time_le_of_strictAsc hS (hmemT _ hlmem)
    have h2 : ¬ n0.time > (es.getLastD e0).time := by
      push_neg
      exact time_le_getLastD_cons hS (hmemT n0 (by simp))
    rw [if_neg h1, if_neg h2]
    have hsE : sortByTime (e0 :: es) = e0 :: es := sortByTime_eq_of_strictAsc hS
    have hsT : sortByTime (n0 :: ns) = n0 :: ns := sortByTime_eq_of_strictAsc hTasc
    rw [hsE, hsT]
    have hbase : mapSetAll [] (e0 :: es) = e0 :: es := by
      have := mapSetAll_append_of_nodup (m := []) (l := e0 :: es)
        (by simpa [times] using times_nodup_of_strictAsc hS)
      simpa using this
    rw [hbase]
    rw [mapSetAll_eq_self (times_nodup_of_strictAsc hS) hmemT]
    exact sortByTime_eq_of_strictAsc hS

theorem mergeCandles_lastWriteWins {e n : List Candle}
    (he : StrictAsc e) (hn : StrictAsc n) {c cNew : Candle}
    (hce : c ∈ e) (hcn : cNew ∈ n) (ht : c.time = cNew.time) :
    (mergeCandles e n).filter (fun x => x.time == cNew.time) = [cNew] := by
  match e, n with
  | [], _ => cases hce
  | _ :: _, [] => cases hcn
  | e0 :: es, n0 :: ns =>
    simp only [mergeCandles]
    have h1 : ¬ (ns.getLastD n0).time < e0.time := by
      push_neg
      calc e0.time ≤ c.time := head_time_le_of_strictAsc he hce
        _ = cNew.time := ht
        _ ≤ (ns.getLastD n0).time := time_le_getLastD_cons hn hcn
    have h2 : ¬ n0.time > (es.getLastD e0).time := by
      push_neg
      calc n0.time ≤ cNew.time := head_time_le_of_strictAsc hn hcn
        _ = c.time := ht.symm
        _ ≤ (es.getLastD e0).time := time_le_getLastD_cons he hce
    rw [if_neg h1, if_neg h2]
    set M := mapSetAll (mapSetAll [] (sortByTime (e0 :: es))) (sortByTime (n0 :: ns)) with hM
    have hsT : sortByTime (n0 :: ns) = n0 :: ns := sortByTime_eq_of_strictAsc hn
    have hMnodup : (times M).Nodup :=
      nodup_times_mapSetAll _ (nodup_times_mapSetAll _ (by simp [times]))
    have hfind : M.find? (fun p => p.time == cNew.time) = some cNew := by
      rw [hM, find?_mapSetAll, hsT]
      have hrev : (n0 :: ns).reverse.find? (fun p => p.time == cNew.time) = some cNew := by
        cases hfr : (n0 :: ns).reverse.find? (fun p => p.time == cNew.time) with
        | none =>
          exfalso
          rw [List.find?_eq_none] at hfr
          exact hfr cNew (List.mem_reverse.mpr hcn) (by simp)
        | some x =>
          have hx1 : x.time = cNew.time := by
            have := List.find?_some hfr
            rwa [beq_iff_eq] at this
          have hx2 : x ∈ n0 :: ns := List.mem_reverse.mp (List.mem_of_find?_eq_some hfr)
          rw [eq_of_mem_time_eq hn hx2 hcn hx1]
      rw [hrev]
    have hfilterM : M.filter (fun p => p.time == cNew.time) = [cNew] :=
      filter_eq_of_find?_nodup hMnodup hfind
    have hperm : ((sortByTime M).filter (fun p => p.time == cNew.time)).Perm
        (M.filter (fun p => p.time == cNew.time)) :=
      (sortByTime_perm M).filter _
    rw [hfilterM] at hperm
    exact List.perm_singleton.mp hperm

/-! Association-list map facts. -/

theorem find?_amSet_replace {β : Type} (m : List (String × β)) (k : String) (v : β) :
    ((m.map (fun kv => if kv.1 == k then (k, v) else kv)).find? (fun kv => kv.1 == k)) =
      if m.any (fun kv => kv.1 == k) then some (k, v) else none := by
  induction m with
  | nil => simp
  | cons a m ih =>
    by_cases hak : a.1 = k
    · simp [List.find?, hak]
    · have h1 : (a.1 == k) = false := by
        simp only [beq_eq_false_iff_ne, ne_eq]
        exact hak
      simp only [List.map_cons, h1, Bool.false_eq_true, if_false, List.find?, List.any_cons,
        Bool.false_or]
      exact ih

theorem amFind_amSet {β : Type} (m : List (String × β)) (k : String) (v : β) :
    amFind (amSet m k v) k = some v := by
  unfold amFind amSet
  by_cases h : m.any (fun kv => kv.1 == k) = true
  · rw [if_pos h, find?_amSet_replace, if_pos h]
    rfl
  · rw [if_neg h, List.find?_append]
    have hnone : m.find? (fun kv => kv.1 == k) = none := by
      rw [List.find?_eq_none]
      intro x hx hxk
      exact h (List.any_eq_true.mpr ⟨x, hx, hxk⟩)
    simp [hnone, List.find?]

theorem amFind_amDelete {β : Type} (m : List (String × β)) (k : String) :
    amFind (amDelete m k) k = none := by
  unfold amFind amDelete
  have hnone : (m.filter (fun kv => kv.1 != k)).find? (fun kv => kv.1 == k) = none := by
    rw [List.find?_eq_none]
    intro x hx
    have := (List.mem_filter.mp hx).2
    simp only [bne_iff_ne, ne_eq] at this
    simp [this]
  rw [hnone]
  rfl

/-! Claim theorems. -/

/-- Claim C1: for every pair of valid candle series that both contain a
candle at the same time `t`, `mergeCandles(existing, incoming)` yields
exactly one candle at `t`, and it is the incoming one (last-write-wins):
filtering the merge result at the shared time gives exactly the incoming
candle. -/
theorem claim_C1_merge_last_write_wins (e n : List Candle)
    (he : StrictAsc e) (hn : StrictAsc n) (c cNew : Candle)
    (hce : c ∈ e) (hcn : cNew ∈ n) (ht : c.time = cNew.time) :
    (mergeCandles e n).filter (fun x => x.time == cNew.time) = [cNew] :=
  mergeCandles_lastWriteWins he hn hce hcn ht

/-- Witness for C1 at the spec's example: merging `[{t=100, c=1}]` with
`[{t=100, c=2}]` leaves exactly the incoming candle at `t=100` (the full
result is also checked to be that singleton). -/
theorem claim_C1_witness :
    (Candle.mk 100 1 1 1 1 0).time = (Candle.mk 100 2 2 2 2 0).time ∧
    (mergeCandles [Candle.mk 100 1 1 1 1 0] [Candle.mk 100 2 2 2 2 0]).filter
      (fun x => x.time == (Candle.mk 100 2 2 2 2 0).time) = [Candle.mk 100 2 2 2 2 0] ∧
    mergeCandles [Candle.mk 100 1 1 1 1 0] [Candle.mk 100 2 2 2 2 0] =
      [Candle.mk 100 2 2 2 2 0] :=
  ⟨rfl,
   claim_C1_merge_last_write_wins [Candle.mk 100 1 1 1 1 0] [Candle.mk 100 2 2 2 2 0]
     (by decide) (by decide) (Candle.mk 100 1 1 1 1 0) (Candle.mk 100 2 2 2 2 0)
     (by decide) (by decide) rfl,
   by decide⟩

/-- Counterexample to C2 as stated: `formatCandleData` does not
deduplicate bucket times.  Two raw records with wire timestamps 1000 ms
and 1500 ms both land in bucket second 1, so the normalised output has
two candles with equal `time` and is not strictly ascending. -/
theorem claim_C2_counterexample :
    times (formatCandleData
      [some (RawCandle.mk (some 1000) (some 1) (some 1) (some 1) (some 1) (some 0)),
       some (RawCandle.mk (some 1500) (some 2) (some 2) (some 2) (some 2) (some 0))]) = [1, 1] ∧
    ¬ StrictAsc (formatCandleData
      [some (RawCandle.mk (some 1000) (some 1) (some 1) (some 1) (some 1) (some 0)),
       some (RawCandle.mk (some 1500) (some 2) (some 2) (some 2) (some 2) (some 0))]) := by
  decide

/-- Claim C2 as amended: for valid inputs the output of `mergeCandles` is
strictly ascending with no duplicate times, and the output of
`formatCandleData` is always sorted ascending by time - but only weakly,
since records falling into the same bucket second are kept. -/
theorem claim_C2_amended :
    (∀ e n : List Candle, StrictAsc e → StrictAsc n → StrictAsc (mergeCandles e n)) ∧
    (∀ rs : List (Option RawCandle), (formatCandleData rs).Sorted timeLE) := by
  refine ⟨fun e n he hn => mergeCandles_strictAsc he hn, fun rs => ?_⟩
  unfold formatCandleData
  by_cases h : rs.isEmpty
  · simp [h]
  · simp only [h, Bool.false_eq_true, if_false]
    exact sortByTime_sorted _

/-- Witness for the amended C2 at concrete inputs. -/
theorem claim_C2_witness :
    StrictAsc (mergeCandles [Candle.mk 50 1 1 1 1 0, Candle.mk 200 2 2 2 2 0]
      [Candle.mk 100 3 3 3 3 0, Candle.mk 300 4 4 4 4 0]) ∧
    (formatCandleData
      [some (RawCandle.mk (some 1000) (some 1) (some 1) (some 1) (some 1) (some 0)),
       some (RawCandle.mk (some 1500) (some 2) (some 2) (some 2) (some 2) (some 0))]).Sorted
      timeLE :=
  ⟨claim_C2_amended.1 _ _ (by decide) (by decide), claim_C2_amended.2 _⟩

/-- Claim C3: merging a valid series, or any subset (sublist) of it, back
into itself leaves the series unchanged; in particular
`mergeCandles S S = S`. -/
theorem claim_C3_merge_idempotent :
    (∀ S : List Candle, StrictAsc S → mergeCandles S S = S) ∧
    (∀ S T : List Candle, StrictAsc S → T.Sublist S → mergeCandles S T = S) :=
  ⟨fun S hS => mergeCandles_sublist_absorb hS (List.Sublist.refl S),
   fun _ _ hS hT => mergeCandles_sublist_absorb hS hT⟩

/-- Witness for C3 at a concrete two-candle series. -/
theorem claim_C3_witness :
    StrictAsc [Candle.mk 50 1 1 1 1 0, Candle.mk 200 2 2 2 2 0] ∧
    mergeCandles [Candle.mk 50 1 1 1 1 0, Candle.mk 200 2 2 2 2 0]
      [Candle.mk 50 1 1 1 1 0, Candle.mk 200 2 2 2 2 0] =
      [Candle.mk 50 1 1 1 1 0, Candle.mk 200 2 2 2 2 0] :=
  ⟨by decide, claim_C3_merge_idempotent.1 _ (by decide)⟩

/-- Claim C5: for every stored set of empty ranges and every
(non-degenerate) query range, `isRangeKnownEmpty(start, end)` is true
exactly when some stored span overlaps the query by strictly more than
80 percent of the query's duration. -/
theorem claim_C5_known_empty_iff (S : List QRange) (s e : ℚ) (h : s < e) :
    isRangeKnownEmpty S s e = true ↔
      ∃ er ∈ S, min e er.endT - max s er.start > 0.8 * (e - s) := by
  have hpos : (0 : ℚ) < e - s := by linarith
  unfold isRangeKnownEmpty
  rw [List.any_eq_true]
  constructor
  · rintro ⟨er, hmem, hb⟩
    refine ⟨er, hmem, ?_⟩
    by_cases hle : max s er.start ≤ min e er.endT
    · rw [if_pos hle, decide_eq_true_iff] at hb
      exact (lt_div_iff₀ hpos).mp hb
    · rw [if_neg hle] at hb
      exact absurd hb (by simp)
  · rintro ⟨er, hmem, hgt⟩
    refine ⟨er, hmem, ?_⟩
    have h08 : (0 : ℚ) < 0.8 := by norm_num
    have hovpos : (0 : ℚ) < min e er.endT - max s er.start :=
      lt_trans (mul_pos h08 hpos) hgt
    have hle : max s er.start ≤ min e er.endT := by linarith
    rw [if_pos hle, decide_eq_true_iff]
    exact (lt_div_iff₀ hpos).mpr hgt

/-- Witness for C5 at the spec's example: with the stored empty span
`{0, 1000}`, the query `{100, 900}` (100 percent overlap) is classified
known-empty and the query `{900, 2000}` (about 9 percent overlap) is
not. -/
theorem claim_C5_witness :
    ((100 : ℚ) < 900 ∧
      (isRangeKnownEmpty [QRange.mk 0 1000] 100 900 = true ↔
        ∃ er ∈ [QRange.mk 0 1000],
          min 900 er.endT - max 100 er.start > 0.8 * ((900 : ℚ) - 100))) ∧
    isRangeKnownEmpty [QRange.mk 0 1000] 100 900 = true ∧
    isRangeKnownEmpty [QRange.mk 0 1000] 900 2000 = false :=
  ⟨⟨by norm_num, claim_C5_known_empty_iff [QRange.mk 0 1000] 100 900 (by norm_num)⟩,
   by simp only [isRangeKnownEmpty, List.any_cons, List.any_nil]; norm_num,
   by simp only [isRangeKnownEmpty, List.any_cons, List.any_nil]; norm_num⟩

/-- Claim C4 is refuted by the code: `_findOverlappingRequest` recovers
the params of a pending entry with `JSON.parse(key.split(':', 2)[1])`,
but the key is `/candle:` followed by JSON that itself contains colons,
so `split(':', 2)[1]` truncates the JSON at its first inner colon (after
`"symbol"`), the parse throws, the `catch` skips the entry, and no
pending request is ever matched.  Concretely: with a request for
BTC/1h over `[100, 200]` in flight, a second request over the contained
range `[120, 180]` finds no overlapping request and goes to the network,
violating the claimed coalescing guarantee. -/
theorem claim_C4_coalescing_bug :
    ((100 : Int) ≤ 120 ∧ (200 : Int) ≥ 180) ∧
    (((jsSplit (requestKey ("/candle")
        (CandleParams.mk ("BTC") ("1h") none (some 100) (some 200) none)) ':').take 2).get? 1).bind
      (fun frag => parseJsonFlat frag) = none ∧
    findOverlappingRequest (CandleParams.mk ("BTC") ("1h") none (some 120) (some 180) none)
      [(requestKey ("/candle") (CandleParams.mk ("BTC") ("1h") none (some 100) (some 200) none), 0)]
      1000 = none ∧
    (fetchWithCacheCandle
      (ApiState.mk []
        [(requestKey ("/candle") (CandleParams.mk ("BTC") ("1h") none (some 100) (some 200) none), 0)]
        [])
      (CandleParams.mk ("BTC") ("1h") none (some 120) (some 180) none) 1000 1).1 =
      FetchOutcome.network (requestKey ("/candle")
        (CandleParams.mk ("BTC") ("1h") none (some 120) (some 180) none)) := by
  decide

/-- Claim C6 is refuted by the code: the fetch continuation inside
`loadDataForRange` applies a response without any check that it is still
for the active symbol/interval.  Concretely: a load is issued for symbol
AAA, `loadSymbol` then switches to BBB (resetting the series), and when
the AAA response resolves its candles are merged into the series of the
now-active BBB. -/
theorem claim_C6_stale_response_applied :
    (loadSymbolSwitch (ChartState.mk ("AAA") ("1h") [] none []) ("BBB") ("1h")).symbol = "BBB" ∧
    (loadSymbolSwitch (ChartState.mk ("AAA") ("1h") [] none []) ("BBB") ("1h")).data = [] ∧
    (applyLoadResponse (loadSymbolSwitch (ChartState.mk ("AAA") ("1h") [] none []) ("BBB") ("1h"))
      0 1000
      [some (RawCandle.mk (some 500000) (some 1) (some 1) (some 1) (some 1) (some 0))]).symbol
      = "BBB" ∧
    (applyLoadResponse (loadSymbolSwitch (ChartState.mk ("AAA") ("1h") [] none []) ("BBB") ("1h"))
      0 1000
      [some (RawCandle.mk (some 500000) (some 1) (some 1) (some 1) (some 1) (some 0))]).data
      = [Candle.mk 500 1 1 1 1 0] := by
  decide

/-- Counterexample to C7 as stated: a second `subscribeToCandles` call
for an already-subscribed key still sends the wire subscribe message.
With `S@1h` already holding callback 7 and the socket open, subscribing
callback 8 sends `S@1h` again. -/
theorem claim_C7_counterexample :
    (amFind (SubsState.mk [("S@1h", [7])] true).subs ("S@1h")).isSome = true ∧
    (subscribeToCandles (SubsState.mk [("S@1h", [7])] true) ("S") ("1h") 8).2 = ["S@1h"] ∧
    (subscribeToCandles (SubsState.mk [("S@1h", [7])] true) ("S") ("1h") 8).1.subs =
      [("S@1h", [7, 8])] := by
  decide

/-- Claim C7 as amended: `subscribeToCandles` sends the wire subscribe
message on every call while the socket is open (not only on the 0-to-1
transition); the unsubscribe side behaves as claimed: removing a callback
while others remain sends no wire message and keeps the key, and removing
the last callback deletes the key and sends the wire unsubscribe
message. -/
theorem claim_C7_amended :
    (∀ (st : SubsState) (sym w : String) (cb : Nat), st.wsOpen = true →
      (subscribeToCandles st sym w cb).2 = [sym ++ "@" ++ w]) ∧
    (∀ (st : SubsState) (sym w : String) (c : Nat) (cbs : List Nat),
      amFind st.subs (sym ++ "@" ++ w) = some cbs → (setDelete cbs c).length > 0 →
      (unsubscribeFromCandles st sym w (some c)).2 = [] ∧
      amFind (unsubscribeFromCandles st sym w (some c)).1.subs (sym ++ "@" ++ w)
        = some (setDelete cbs c)) ∧
    (∀ (st : SubsState) (sym w : String) (c : Nat) (cbs : List Nat),
      st.wsOpen = true → amFind st.subs (sym ++ "@" ++ w) = some cbs → setDelete cbs c = [] →
      (unsubscribeFromCandles st sym w (some c)).2 = ["-" ++ (sym ++ "@" ++ w)] ∧
      amFind (unsubscribeFromCandles st sym w (some c)).1.subs (sym ++ "@" ++ w) = none) := by
  refine ⟨?_, ?_, ?_⟩
  · intro st sym w cb h
    simp [subscribeToCandles, h]
  · intro st sym w c cbs hfind hlen
    simp only [unsubscribeFromCandles, hfind, hlen, if_pos, amFind_amSet]
    exact ⟨trivial, trivial⟩
  · intro st sym w c cbs hopen hfind hdel
    simp only [unsubscribeFromCandles, hfind, hdel, List.length_nil, gt_iff_lt, lt_irrefl,
      if_false, hopen, if_true, amFind_amDelete]
    exact ⟨trivial, trivial⟩

/-- Witness for the amended C7 at a concrete subscription state. -/
theorem claim_C7_witness :
    (subscribeToCandles (SubsState.mk [("S@1h", [7])] true) ("S") ("1h") 8).2 =
      ["S" ++ "@" ++ "1h"] :=
  claim_C7_amended.1 (SubsState.mk [("S@1h", [7])] true) ("S") ("1h") 8 rfl

/-- Counterexample to C8 as stated: `isMarketOpen` treats the closing
minute as open (the source compares with `<= closeMinutes`), so the
claimed half-open interval `[open, close)` is wrong at the closing
instant.  Timestamp 57600000 is Thursday (day 4) 16:00 UTC; with a
schedule open 9:00-16:00 on day 4 the source returns true although
16:00 is outside `[9:00, 16:00)`. -/
theorem claim_C8_counterexample :
    ¬ (isMarketOpen
        (some (Instrument.mk ("Stock")
          (some [MarketSession.mk (SessionTime.mk 4 9 0) (SessionTime.mk 4 16 0)])))
        57600000 = true ↔
      ∃ mh ∈ [MarketSession.mk (SessionTime.mk 4 9 0) (SessionTime.mk 4 16 0)],
        mh.openT.day = utcDay 57600000 ∧
          mh.openT.hour * 60 + mh.openT.minute ≤ utcHour 57600000 * 60 + utcMinute 57600000 ∧
          utcHour 57600000 * 60 + utcMinute 57600000 < mh.closeT.hour * 60 + mh.closeT.minute) := by
  decide

/-- Claim C8 as amended: continuous instruments (missing metadata or the
`Crypto` category) are always open; otherwise, provided the schedule has
at most one entry per day, `isMarketOpen` is true exactly when an entry
for the timestamp's UTC day exists and the minute of day lies in the
closed interval `[open, close]` (so in particular false when no entry
exists for the day). -/
theorem claim_C8_amended :
    (∀ ts : Int, isMarketOpen none ts = true) ∧
    (∀ (inst : Instrument) (ts : Int), inst.category = "Crypto" →
      isMarketOpen (some inst) ts = true) ∧
    (∀ (inst : Instrument) (sessions : List MarketSession) (ts : Int),
      inst.category ≠ "Crypto" → inst.market = some sessions →
      (sessions.map (fun m => m.openT.day)).Nodup →
      (isMarketOpen (some inst) ts = true ↔
        ∃ mh ∈ sessions, mh.openT.day = utcDay ts ∧
          mh.openT.hour * 60 + mh.openT.minute ≤ utcHour ts * 60 + utcMinute ts ∧
          utcHour ts * 60 + utcMinute ts ≤ mh.closeT.hour * 60 + mh.closeT.minute)) := by
  refine ⟨fun ts => rfl, fun inst ts h => by simp [isMarketOpen, h], ?_⟩
  intro inst sessions ts hcat hmkt hnodup
  simp only [isMarketOpen, if_neg hcat, hmkt]
  cases hf : sessions.find? (fun m => m.openT.day == utcDay ts) with
  | none =>
    simp only [Bool.false_eq_true, false_iff]
    rintro ⟨mh, hmem, hday, -⟩
    have hne := List.find?_eq_none.mp hf mh hmem
    simp [hday] at hne
  | some mh =>
    have hdaymh : mh.openT.day = utcDay ts := by
      have := List.find?_some hf
      rwa [beq_iff_eq] at this
    simp only [decide_eq_true_eq]
    constructor
    · rintro ⟨h1, h2⟩
      exact ⟨mh, List.mem_of_find?_eq_some hf, hdaymh, h1, h2⟩
    · rintro ⟨mh2, hmem2, hday2, hb1, hb2⟩
      have heq : mh2 = mh :=
        List.inj_on_of_nodup_map hnodup hmem2 (List.mem_of_find?_eq_some hf)
          (by rw [hday2, hdaymh])
      rw [heq] at hb1 hb2
      exact ⟨hb1, hb2⟩

/-- Witness for the amended C8: a continuous (missing-metadata)
instrument is open, and for a concrete stock schedule the equivalence
holds at 15:59 Thursday. -/
theorem claim_C8_witness :
    isMarketOpen none 0 = true ∧
    ((Instrument.mk ("Stock")
        (some [MarketSession.mk (SessionTime.mk 4 9 0) (SessionTime.mk 4 16 0)])).category ≠
          "Crypto" ∧
      (isMarketOpen (some (Instrument.mk ("Stock")
          (some [MarketSession.mk (SessionTime.mk 4 9 0) (SessionTime.mk 4 16 0)]))) 57540000 =
          true ↔
        ∃ mh ∈ [MarketSession.mk (SessionTime.mk 4 9 0) (SessionTime.mk 4 16 0)],
          mh.openT.day = utcDay 57540000 ∧
            mh.openT.hour * 60 + mh.openT.minute ≤ utcHour 57540000 * 60 + utcMinute 57540000 ∧
            utcHour 57540000 * 60 + utcMinute 57540000 ≤
              mh.closeT.hour * 60 + mh.closeT.minute)) :=
  ⟨claim_C8_amended.1 0,
   by decide,
   claim_C8_amended.2.2 _ _ 57540000 (by decide) rfl (by decide)⟩

/-- Claim C9: `parseInterval` never throws (it is a total function) and
returns the 1-day default of 86,400,000 ms on every unrecognised token:
non-string input, the empty string, a count that does not parse, a
non-positive count, or an unknown unit suffix; on recognised tokens it
returns the count times the unit duration (minute, hour, day, week, or
30 days per month). -/
theorem claim_C9_parse_interval :
    parseInterval none = 86400000 ∧
    parseInterval (some "") = 86400000 ∧
    (∀ s : String, s ≠ "" → jsParseInt s.data.dropLast = none →
      parseInterval (some s) = 86400000) ∧
    (∀ (s : String) (v : Int), s ≠ "" → jsParseInt s.data.dropLast = some v → v ≤ 0 →
      parseInterval (some s) = 86400000) ∧
    (∀ s : String, s ≠ "" → s.data.getLastD ' ' ∉ (['m', 'h', 'd', 'w', 'o'] : List Char) →
      parseInterval (some s) = 86400000) ∧
    (∀ (s : String) (v : Int), s ≠ "" → jsParseInt s.data.dropLast = some v → 0 < v →
      (s.data.getLastD ' ' = 'm' → parseInterval (some s) = v * 60000) ∧
      (s.data.getLastD ' ' = 'h' → parseInterval (some s) = v * 3600000) ∧
      (s.data.getLastD ' ' = 'd' → parseInterval (some s) = v * 86400000) ∧
      (s.data.getLastD ' ' = 'w' → parseInterval (some s) = v * 604800000) ∧
      (s.data.getLastD ' ' = 'o' → parseInterval (some s) = v * 2592000000)) := by
  refine ⟨rfl, rfl, ?_, ?_, ?_, ?_⟩
  · intro s hs hparse
    simp [parseInterval, hs, hparse]
  · intro s v hs hparse hv
    simp [parseInterval, hs, hparse, hv]
  · intro s hs hunit
    simp only [List.mem_cons, List.not_mem_nil, or_false, not_or] at hunit
    obtain ⟨hm, hh, hd, hw, ho⟩ := hunit
    rw [List.getLastD_eq_getLast?] at hm hh hd hw ho
    simp only [parseInterval, hs, if_neg]
    cases hp : jsParseInt s.data.dropLast with
    | none => rfl
    | some v =>
      by_cases hv : v ≤ 0
      · simp [hv]
      · simp [hv, hm, hh, hd, hw, ho]
  · intro s v hs hparse hv
    have hv2 : ¬ v ≤ 0 := not_le.mpr hv
    refine ⟨?_, ?_, ?_, ?_, ?_⟩ <;> intro hunit <;>
      rw [List.getLastD_eq_getLast?] at hunit <;>
      simp [parseInterval, hs, hparse, hv2, hunit]

/-- Witness for C9: `"3m"` parses to three minutes, `"5x"` (unknown unit)
falls back to the 1-day default. -/
theorem claim_C9_witness :
    parseInterval (some ("3m")) = 3 * 60000 ∧ parseInterval (some ("5x")) = 86400000 :=
  ⟨(claim_C9_parse_interval.2.2.2.2.2 ("3m") 3 (by decide) (by decide) (by decide)).1 (by decide),
   claim_C9_parse_interval.2.2.2.2.1 ("5x") (by decide) (by decide)⟩

/-- Claim C10: calling `fetchCandles` with a start timestamp strictly in
the future returns `null` (`none`) and leaves the `ApiService` state - the
response cache, the in-flight index and the covered-range index -
untouched, issuing no network request. -/
theorem claim_C10_future_start (st : ApiState) (symbol width : String)
    (limit start endo : Option Int) (ref : Option String) (now : Int) (rid : Nat) (s : Int)
    (hs : start = some s) (hgt : s > now) (hnow : 0 ≤ now) :
    fetchCandles st symbol width limit start endo ref now rid = (none, st) := by
  subst hs
  have hs0 : s ≠ 0 := by omega
  simp [fetchCandles, jsTruthyInt, hs0, hgt]

/-- Witness for C10: a request starting at 2000 ms with the clock at
1000 ms is dropped with the state unchanged. -/
theorem claim_C10_witness :
    fetchCandles (ApiState.mk [] [] []) ("BTC") ("1h") none (some 2000) none none 1000 5 =
      (none, ApiState.mk [] [] []) :=
  claim_C10_future_start (ApiState.mk [] [] []) ("BTC") ("1h") none (some 2000) none none
    1000 5 2000 rfl (by decide) (by decide)

end TVChart
